import Mathlib

/-!
Verification of the CloudTrail log filtering engine.

This file gives a shallow embedding, in Lean 4, of the core of the
CloudTrail-Log-Parser repository and proves properties of the embedded
code:

* `pkg/utils` — dotted-field resolution over decoded JSON records
  (`FieldExists` / `findField`);
* `pkg/rules` — the rule model, the uncompiled evaluator
  (`Configuration.EvalRules` / `Rule.Eval`), the compiled evaluator
  (`CachedConfiguration.EvalRules` / `CachedRule.Eval`) and
  `PrepareConfiguration`, the pattern validator (`ValidateIsRegex` /
  `containsReDoSPattern`) and the field-path validator
  (`isValidFieldPath`);
* `pkg/cloudtrailprocessor` — the batch filter (`FilterRecords`) and the
  line-oriented streaming record extractor (`ProcessStream` /
  `processRecord`);
* `pkg/retry` — the default retryable-error predicate and `IsRetryable`
  with its hand-rolled substring search.

Modelling conventions:

* Go strings and byte slices are modelled as `List Char` (`Str`); for
  the ASCII inputs considered every byte is one character.
* Go's `regexp.Regexp` is abstracted to its matching function
  `Matcher := Str → Bool`; `regexp.Compile` is an abstract parameter
  `compile : Str → Option Matcher` (`none` models a compile error).
  `getOrCompileRegex` is a memoization of `regexp.Compile` under a
  reader/writer lock and is denotationally `compile` itself.
* `json.Unmarshal` of a record into `map[string]any` is an abstract
  parameter `decode : Str → Option JsonObj`.
* Go maps `map[string]any` are modelled as association lists with
  first-match lookup; CloudTrail records have unique keys.
* Fallible Go functions returning `error` are modelled with
  `Option`/`Except`, or with an explicit `Option Str` error component
  where the Go function returns a value alongside the error.
-/

/-- Go strings / byte slices. -/
abbrev Str := List Char

/-- The character `{` (byte 123). -/
def lbrace : Char := Char.ofNat 123

/-- The character `}` (byte 125). -/
def rbrace : Char := Char.ofNat 125

/-- The character `[`. -/
def lbrack : Char := '['

/-- The character `]`. -/
def rbrack : Char := ']'

/-- The character `.`. -/
def dotChar : Char := '.'

/-- A decoded JSON value, the model of the `any` values produced by
`json.Unmarshal` into `map[string]any`: strings, numbers, booleans,
null, arrays, and nested objects. -/
inductive JsonValue where
  | str (s : Str)
  | num (n : Int)
  | boolean (b : Bool)
  | null
  | arr (xs : List JsonValue)
  | obj (fields : List (Str × JsonValue))

/-- A decoded record: the `map[string]any` at the top of a JSON object. -/
abbrev JsonObj := List (Str × JsonValue)

/-- Go map indexing `obj[field]` (keys are unique in decoded JSON, so
first-match association lookup is the map semantics). -/
def lookupField : JsonObj → Str → Option JsonValue
  | [], _ => none
  | (k, v) :: rest, key => if k = key then some v else lookupField rest key

/-- Whether a `JsonValue` is a JSON object, i.e. whether the Go type
assertion `val.(map[string]any)` succeeds. -/
def JsonValue.isMapping : JsonValue → Bool
  | .obj _ => true
  | _ => false

/-- Embedding of `strings.Split(s, ".")`: split on every dot; `""` splits to `[""]`,
consecutive dots produce empty segments. -/
def splitOnDot : Str → List Str
  | [] => [[]]
  | c :: rest =>
    let r := splitOnDot rest
    if c = dotChar then [] :: r else (c :: r.headD []) :: r.tail

/-- Embedding of `utils.findField(obj, path)` from `pkg/utils/utils.go`: empty path is
"not found"; a missing key is "not found"; a nested map is descended into
(also when the path has only one segment left, so a mapping at the final
segment recurses with an empty path and yields "not found"); a non-map
value is returned iff it sits at the final segment. -/
def findField : JsonObj → List Str → Bool × Option JsonValue
  | _, [] => (false, none)
  | o, f :: rest =>
    match lookupField o f with
    | none => (false, none)
    | some (JsonValue.obj nested) => findField nested rest
    | some v =>
      match rest with
      | [] => (true, some v)
      | _ :: _ => (false, none)

/-- Embedding of `utils.FieldExists(field, event)`: split the dotted path and walk the
record with `findField`. -/
def FieldExists (field : Str) (evt : JsonObj) : Bool × Option JsonValue :=
  findField evt (splitOnDot field)

/-- The matching function of a compiled `regexp.Regexp`
(`Pattern.MatchString`). -/
abbrev Matcher := Str → Bool

/-- Embedding of `rules.Match`: a field path and a regex source text. -/
structure MatchCond where
  fieldName : Str
  regex : Str

/-- Embedding of `rules.Rule`: a named conjunction of matches. -/
structure Rule where
  name : Str
  matchList : List MatchCond

/-- Embedding of `rules.Configuration`: the uncompiled rule set. -/
structure Configuration where
  rules : List Rule

/-- Embedding of `rules.DropedEvent`: the name of the rule that caused a drop. -/
structure DropedEvent where
  ruleName : Str
deriving DecidableEq

/-- Embedding of `rules.CachedMatch`: a field path with a pre-compiled pattern. -/
structure CachedMatch where
  fieldName : Str
  pattern : Matcher

/-- Embedding of `rules.CachedRule`. -/
structure CachedRule where
  name : Str
  matchList : List CachedMatch

/-- Embedding of `rules.CachedConfiguration`. -/
structure CachedConfiguration where
  rules : List CachedRule

/-- The inner loop of `rules.PrepareConfiguration` over one rule's
matches: compile (via the pattern cache) each regex, failing if any
pattern fails to compile. -/
def prepareMatches (compile : Str → Option Matcher) :
    List MatchCond → Option (List CachedMatch)
  | [] => some []
  | m :: rest => do
    let p ← compile m.regex
    let ms ← prepareMatches compile rest
    pure (⟨m.fieldName, p⟩ :: ms)

/-- The body of `rules.PrepareConfiguration`'s outer loop for one rule:
a `CachedRule` with the same name and the compiled matches. -/
def prepareRule (compile : Str → Option Matcher) (r : Rule) :
    Option CachedRule := do
  let ms ← prepareMatches compile r.matchList
  pure ⟨r.name, ms⟩

/-- The outer loop of `rules.PrepareConfiguration`: prepare each rule in
declared order, stopping at the first compile failure. -/
def prepareRules (compile : Str → Option Matcher) :
    List Rule → Option (List CachedRule)
  | [] => some []
  | r :: rest => do
    let cr ← prepareRule compile r
    let crs ← prepareRules compile rest
    pure (cr :: crs)

/-- Embedding of `rules.PrepareConfiguration`: build the `CachedConfiguration` whose
rules carry pre-compiled patterns, in declared order; `none` if any
pattern fails to compile. -/
def PrepareConfiguration (compile : Str → Option Matcher)
    (cfg : Configuration) : Option CachedConfiguration := do
  let rs ← prepareRules compile cfg.rules
  pure ⟨rs⟩

/-- The loop of `rules.CachedRule.Eval`: `allMatch` starts `true`; a
missing field, a present non-string value, or a pattern miss sets it
`false` and breaks; otherwise evaluation continues with the next match.
(The Go loop's `allMatch = allMatch && hasMatch` with an early `break`
on `false` is this recursion, since `allMatch` is `true` whenever the
loop continues.) -/
def evalCachedMatches (evt : JsonObj) : List CachedMatch → Bool
  | [] => true
  | m :: rest =>
    match FieldExists m.fieldName evt with
    | (true, v) =>
      match v with
      | some (JsonValue.str s) =>
        if m.pattern s then evalCachedMatches evt rest else false
      | _ => false
    | (false, _) => false

/-- Embedding of `rules.CachedRule.Eval`: returns `(allMatch, dropEvent)` where the
drop event carries the rule name exactly when the rule matched.  The Go
function's `error` result is always `nil`, so it is omitted here. -/
def CachedRule.Eval (cr : CachedRule) (evt : JsonObj) : Bool × DropedEvent :=
  let b := evalCachedMatches evt cr.matchList
  (b, ⟨if b then cr.name else []⟩)

/-- The loop of `rules.CachedConfiguration.EvalRules`: first matching
rule wins (early exit); no rule matching yields `(false, none)`.
The per-rule `error` is always `nil` (see `CachedRule.Eval`), so the
Go loop's error check is dead code and omitted. -/
def evalCachedRules (evt : JsonObj) : List CachedRule → Bool × Option DropedEvent
  | [] => (false, none)
  | r :: rest =>
    let res := CachedRule.Eval r evt
    if res.1 then (true, some res.2) else evalCachedRules evt rest

/-- Embedding of `rules.CachedConfiguration.EvalRules`. -/
def CachedConfiguration.EvalRules (cc : CachedConfiguration) (evt : JsonObj) :
    Bool × Option DropedEvent :=
  evalCachedRules evt cc.rules

/-- The loop of the uncompiled `rules.Rule.Eval`, carrying the running
conjunction `b`.  Faithfully to the source: a missing field sets
`b = b && exists` (i.e. `false`) and *continues*; a present non-string
value is *skipped* (`continue` with `b` unchanged); a present string
compiles the regex (error aborts with `(false, err)`) and continues with
`b && hasMatch`; there is no early exit. -/
def ruleEvalLoop (compile : Str → Option Matcher) (evt : JsonObj) :
    List MatchCond → Bool → Bool × Option Str
  | [], b => (b, none)
  | m :: rest, b =>
    match FieldExists m.fieldName evt with
    | (true, v) =>
      match v with
      | some (JsonValue.str s) =>
        match compile m.regex with
        | none => (false, some ("invalid regex").data)
        | some p => ruleEvalLoop compile evt rest (b && p s)
      | _ => ruleEvalLoop compile evt rest b
    | (false, _) => ruleEvalLoop compile evt rest (b && false)

/-- Embedding of `rules.Rule.Eval` (uncompiled): wraps `ruleEvalLoop` and fills the
drop event with the rule name exactly when the rule matched; a regex
compile error returns `(false, empty drop event, err)` as in the source. -/
def Rule.Eval (compile : Str → Option Matcher) (r : Rule) (evt : JsonObj) :
    Bool × DropedEvent × Option Str :=
  match ruleEvalLoop compile evt r.matchList true with
  | (_, some e) => (false, ⟨[]⟩, some e)
  | (b, none) => (b, ⟨if b then r.name else []⟩, none)

/-- The loop of the uncompiled `rules.Configuration.EvalRules`: an error
aborts, the first matching rule wins, otherwise continue. -/
def evalConfigRules (compile : Str → Option Matcher) (evt : JsonObj) :
    List Rule → Bool × Option DropedEvent × Option Str
  | [] => (false, none, none)
  | r :: rest =>
    match Rule.Eval compile r evt with
    | (_, _, some e) => (false, none, some e)
    | (true, de, none) => (true, some de, none)
    | (false, _, none) => evalConfigRules compile evt rest

/-- Embedding of `rules.Configuration.EvalRules`. -/
def Configuration.EvalRules (compile : Str → Option Matcher)
    (cfg : Configuration) (evt : JsonObj) :
    Bool × Option DropedEvent × Option Str :=
  evalConfigRules compile evt cfg.rules

/-- Embedding of `startsWith s pat`: `pat` is a prefix of `s`, compared character by
character (the semantics of Go's `strings.HasPrefix` and of an anchored
match of a concatenation of single-character regex atoms). -/
def startsWithSeq : Str → Str → Bool
  | _, [] => true
  | [], _ :: _ => false
  | c :: cs, p :: ps => c = p && startsWithSeq cs ps

/-- Embedding of `strings.Contains(s, pat)` / `bytes.Contains`: `pat` occurs as a
contiguous run somewhere in `s` (scan every suffix). -/
def containsSeq (pat : Str) : Str → Bool
  | [] => pat.isEmpty
  | c :: rest => startsWithSeq (c :: rest) pat || containsSeq pat rest

/-- A word character, the regex class `\w` = `[0-9A-Za-z_]`. -/
def isWordChar (c : Char) : Bool :=
  c.isAlpha || c.isDigit || c = '_'

/-- Matching of one of the screen regexes of `containsReDoSPattern` at
the start of `s`: each screen regex is a concatenation of
single-character atoms (literal characters and the classes `\w`, `\d`),
represented as the list of character predicates `shape`. -/
def matchShapeAt : Str → List (Char → Bool) → Bool
  | _, [] => true
  | [], _ :: _ => false
  | c :: cs, p :: ps => p c && matchShapeAt cs ps

/-- Embedding of `regexp.MatchString(shapeRegex, s)` for a concatenation of
single-character atoms: the shape matches at some position of `s`. -/
def containsShape (shape : List (Char → Bool)) : Str → Bool
  | [] => shape.isEmpty
  | c :: rest => matchShapeAt (c :: rest) shape || containsShape shape rest

/-- Predicate list for a literal character. -/
def litP (c : Char) : Char → Bool := fun d => d = c

/-- The six screen regexes of `rules.containsReDoSPattern`, in source
order.  Note that in the third and fourth screens the `\w` and `\d` are
character *classes* (one word character / one digit), while all other
atoms are escaped literals. -/
def reDoSShapes : List (List (Char → Bool)) :=
  [ [litP '(', litP dotChar, litP '*', litP ')', litP '+'],
    [litP '(', litP dotChar, litP '+', litP ')', litP '+'],
    [litP '(', isWordChar, litP '+', litP ')', litP '*', isWordChar, litP '*'],
    [litP '(', Char.isDigit, litP '+', litP ')', litP '+'],
    [litP '(', litP dotChar, litP '*', litP ')', litP '*'],
    [litP '(', litP lbrack, litP '^', litP '/', litP rbrack, litP '+',
      litP ')', litP '+', litP '/'] ]

/-- Embedding of `rules.containsReDoSPattern`: the pattern is flagged iff any of the
six screen regexes matches somewhere in it. -/
def containsReDoSPattern (pattern : Str) : Bool :=
  reDoSShapes.any (fun shape => containsShape shape pattern)

/-- Embedding of `rules.ValidateIsRegex` on the pattern text: reject if the ReDoS
screen fires, then if the length exceeds 1000, then if the pattern fails
to compile; accept otherwise.  (`fl.Field().String()` extraction and the
log call are omitted; compilability is the abstract `compile`.) -/
def ValidateIsRegex (compile : Str → Option Matcher) (pattern : Str) : Bool :=
  if containsReDoSPattern pattern then false
  else if pattern.length > 1000 then false
  else (compile pattern).isSome

/-- The claim-side reading of the ReDoS screen: a *literal* occurrence
of one of the six dangerous shape texts `(.*)+`, `(.+)+`, `(.*)*`,
`(\w+)*\w*`, `(\d+)+`, `([^/]+)+/`. -/
def specScreenLiterals : List Str :=
  [ ("(.*)+").data, ("(.+)+").data, ("(.*)*").data,
    ("(\\w+)*\\w*").data, ("(\\d+)+").data, ("([^/]+)+/").data ]

/-- The claim-side rejection predicate for `ValidateIsRegex`: length
over 1000, or not compilable, or a literal dangerous shape occurs. -/
def specRegexRejects (compiles : Str → Bool) (pattern : Str) : Bool :=
  pattern.length > 1000 || !compiles pattern ||
    specScreenLiterals.any (fun lit => containsSeq lit pattern)

/-- The character class `[a-zA-Z0-9_.\-]` of the field-path regex. -/
def pathClass (c : Char) : Bool :=
  c.isAlpha || c.isDigit || c = '_' || c = dotChar || c = '-'

/-- The character class `[A-Za-z0-9_-]` of one path segment (no dot). -/
def segClass (c : Char) : Bool :=
  c.isAlpha || c.isDigit || c = '_' || c = '-'

/-- The anchored regex `^[a-zA-Z][a-zA-Z0-9_.\-]*$` of
`rules.isValidFieldPath`: first character alphabetic, all following
characters in the path class. -/
def fieldPathRegex : Str → Bool
  | [] => false
  | c :: rest => c.isAlpha && rest.all pathClass

/-- Embedding of `strings.HasSuffix(path, ".")`: the last character is a dot. -/
def hasSuffixDot (cs : Str) : Bool :=
  cs.getLast? = some dotChar

/-- Embedding of `rules.isValidFieldPath`: the anchored regex must match, and the
path must not contain `..`, start with `.`, or end with `.`. -/
def isValidFieldPath (path : Str) : Bool :=
  if !fieldPathRegex path then false
  else if containsSeq [dotChar, dotChar] path ||
          startsWithSeq path [dotChar] || hasSuffixDot path then false
  else true

/-- The claim-side field-path predicate: every dot-separated segment
(including the first) matches `[A-Za-z][A-Za-z0-9_-]*`. -/
def specFieldPath (path : Str) : Bool :=
  (splitOnDot path).all fun s =>
    match s with
    | [] => false
    | c :: rest => c.isAlpha && rest.all segClass

/-- The amended field-path predicate: no empty segments, all segment
characters in `[A-Za-z0-9_-]`, and the *first* segment starts with a
letter (later segments may start with digits, `_` or `-`). -/
def amendedFieldPath (path : Str) : Bool :=
  match splitOnDot path with
  | [] => false
  | first :: restSegs =>
    (match first with
     | [] => false
     | c :: rest => c.isAlpha && rest.all segClass) &&
    restSegs.all (fun s => !s.isEmpty && s.all segClass)

/-- A raw (undecoded) record: the byte slice `json.RawMessage`. -/
abbrev RawRecord := Str

/-- Embedding of `cloudtrailprocessor.FilterRecords` on the record list of the input
`Cloudtrail` document.  The source iterates the indices `0..n-1` in
ascending order (the chunking into batches of 100 visits exactly the
same indices in the same order and is control flow only, so it is
flattened here).  A record failing to decode aborts with the error of
the source; a dropped record is skipped; a kept record is appended as
its original bytes.  `EvalRules` never returns an error (see
`CachedRule.Eval`), so the source's second error branch is dead code. -/
def FilterRecords (decode : RawRecord → Option JsonObj)
    (cc : CachedConfiguration) : List RawRecord → Except Str (List RawRecord)
  | [] => .ok []
  | r :: rest =>
    match decode r with
    | none => .error ("unmarshal record failed").data
    | some evt =>
      if (cc.EvalRules evt).1 then FilterRecords decode cc rest
      else
        match FilterRecords decode cc rest with
        | .error e => .error e
        | .ok out => .ok (r :: out)

/-- The observable state of `processor.StreamingProcessor.ProcessStream`
(from the second document of `pkg/cloudtrailprocessor/cloudtrailprocessor_test.go`):
the scan flags and bracket depth, the record buffer, and the outcome of
the records handed to `processRecord` — `emitted` records the arguments
of every `processRecord` call in order (instrumentation of the model),
`kept` the records written to the output stream between the
`{"Records":[` header and the `]}` footer, and the counters mirror
`ProcessingResult` plus the count of errors that were logged and
skipped. -/
structure StreamState where
  foundRecords : Bool
  inRecordsArray : Bool
  bracketDepth : Int
  recordBuffer : Str
  emitted : List RawRecord
  kept : List RawRecord
  processedCount : Nat
  filteredCount : Nat
  errorCount : Nat
deriving DecidableEq

/-- The initial state of a `ProcessStream` call. -/
def initialStreamState : StreamState :=
  ⟨false, false, 0, [], [], [], 0, 0, 0⟩

/-- Embedding of `processor.StreamingProcessor.processRecord` (with
`shouldFilterRecord` inlined): count the record as processed, decode it
(a failure is returned to the caller as an error, which the scan loop
logs and counts without stopping — modelled by `errorCount`), evaluate
the rules, and either count the record as filtered or write it to the
output (the `,` separator handling is representation only; `kept` holds
the written records in order). -/
def processRecord (decode : RawRecord → Option JsonObj)
    (cc : CachedConfiguration) (rec : RawRecord) (st : StreamState) :
    StreamState :=
  let st := { st with processedCount := st.processedCount + 1,
                      emitted := st.emitted ++ [rec] }
  match decode rec with
  | none => { st with errorCount := st.errorCount + 1 }
  | some evt =>
    if (cc.EvalRules evt).1 then
      { st with filteredCount := st.filteredCount + 1 }
    else
      { st with kept := st.kept ++ [rec] }

/-- One step of the byte loop of `ProcessStream` (the
`for _, b := range line` switch): `{` resets the buffer at depth 0,
increments the depth and is appended; `}` is appended, decrements the
depth, and at depth 0 with a non-empty buffer the buffer is handed to
`processRecord` and reset; `]` at depth 0 clears `inRecordsArray` (the
Go `break` leaves only the switch, so scanning of the current line
continues) and is otherwise appended; any other byte is appended iff the
depth is positive. -/
def processByte (decode : RawRecord → Option JsonObj)
    (cc : CachedConfiguration) (st : StreamState) (b : Char) : StreamState :=
  if b = lbrace then
    let st := if st.bracketDepth = 0 then { st with recordBuffer := [] } else st
    { st with bracketDepth := st.bracketDepth + 1,
              recordBuffer := st.recordBuffer ++ [b] }
  else if b = rbrace then
    let st := { st with recordBuffer := st.recordBuffer ++ [b],
                        bracketDepth := st.bracketDepth - 1 }
    if st.bracketDepth = 0 ∧ 0 < st.recordBuffer.length then
      let st := processRecord decode cc st.recordBuffer st
      { st with recordBuffer := [] }
    else st
  else if b = rbrack then
    if st.bracketDepth = 0 then { st with inRecordsArray := false }
    else { st with recordBuffer := st.recordBuffer ++ [b] }
  else
    if 0 < st.bracketDepth then { st with recordBuffer := st.recordBuffer ++ [b] }
    else st

/-- Characters accepted by `unicode.IsSpace` in the Latin-1 range (the
inputs are ASCII JSON). -/
def isSpaceChar (c : Char) : Bool :=
  c = ' ' || c = '\t' || c = '\n' || c = Char.ofNat 11 || c = Char.ofNat 12 ||
  c = '\r' || c = Char.ofNat 133 || c = Char.ofNat 160

/-- The token `"Records"` (with the quotes) searched for by the scan. -/
def recordsToken : Str := ('"' :: ("Records").data) ++ ['"']

/-- One iteration of the `scanner.Scan()` loop of `ProcessStream` for
one line: skip lines that are all whitespace; before `"Records"` is
seen, skip lines not containing the token, and on the line containing it
start the array after the first `[` (if the line has no `[`, the
`inRecordsArray` check skips the rest of the line); once past that, skip
lines while not inside the array, and otherwise run the byte loop. -/
def processLine (decode : RawRecord → Option JsonObj)
    (cc : CachedConfiguration) (st : StreamState) (line : Str) : StreamState :=
  if line.all isSpaceChar then st
  else if !st.foundRecords then
    if containsSeq recordsToken line then
      match line.findIdx? (fun c => c = lbrack) with
      | some idx =>
        let st := { st with foundRecords := true, inRecordsArray := true }
        (line.drop (idx + 1)).foldl (processByte decode cc) st
      | none => { st with foundRecords := true }
    else st
  else if !st.inRecordsArray then st
  else line.foldl (processByte decode cc) st

/-- Embedding of `processor.StreamingProcessor.ProcessStream` restricted to its record
extraction and per-record processing: fold the line loop over the lines
of the (already decompressed) input.  Reader/writer setup, gzip, the
output header and footer bytes, context cancellation and scanner I/O
errors are outside the model; no error is produced by record processing
itself (decode failures are logged and counted, see `processRecord`). -/
def ProcessStream (decode : RawRecord → Option JsonObj)
    (cc : CachedConfiguration) (lines : List Str) : StreamState :=
  lines.foldl (processLine decode cc) initialStreamState

/-- The twelve transient-error substrings of `retry.IsRetryable`, in
source order. -/
def retryablePatterns : List Str :=
  [ ("timeout").data, ("connection refused").data, ("connection reset").data,
    ("no such host").data, ("temporary failure").data,
    ("TooManyRequests").data, ("RequestLimitExceeded").data,
    ("ServiceUnavailable").data, ("ThrottlingException").data,
    ("ProvisionedThroughputExceededException").data,
    ("TransactionInProgressException").data, ("RequestThrottled").data ]

/-- Embedding of `retry.containsMiddle(s, substr)`: scan the interior start positions
`1 ≤ i < len(s) - len(substr)` for an occurrence `s[i:i+len(substr)]`. -/
def containsMiddle (s substr : Str) : Bool :=
  if s.length ≤ substr.length then false
  else (List.range' 1 (s.length - substr.length - 1)).any fun i =>
    (s.drop i).take substr.length = substr

/-- Embedding of `retry.contains(s, substr)`: the hand-rolled substring test — equal,
or a proper prefix `s[:len(substr)]`, or a proper suffix
`s[len(s)-len(substr):]`, or an interior occurrence. -/
def retryContains (s substr : Str) : Bool :=
  decide (0 < substr.length) && decide (substr.length ≤ s.length) &&
    (decide (s = substr) ||
     (decide (substr.length < s.length) &&
       (decide (s.take substr.length = substr) ||
        decide (s.drop (s.length - substr.length) = substr))) ||
     containsMiddle s substr)

/-- Embedding of `retry.IsRetryable`: `nil` is not retryable; otherwise the error
message is scanned for the twelve transient substrings.  The message of
a non-`nil` error is modelled as `some msg`. -/
def IsRetryable : Option Str → Bool
  | none => false
  | some msg => retryablePatterns.any fun pat => retryContains msg pat

/-- The `RetryableError` field installed by `retry.DefaultConfig`: every
error is retryable (`return true`). -/
def defaultRetryableError : Option Str → Bool := fun _ => true

/-- Whether one compiled match succeeds on a record: the field resolves
to a string and the pattern matches it (the per-match success condition
of the evaluator). -/
def cachedMatchOk (evt : JsonObj) (m : CachedMatch) : Bool :=
  match FieldExists m.fieldName evt with
  | (true, some (JsonValue.str s)) => m.pattern s
  | _ => false

/-- Whether a record is kept by the filter: it decodes and no rule
matches it. -/
def keepRecord (decode : RawRecord → Option JsonObj)
    (cc : CachedConfiguration) (r : RawRecord) : Bool :=
  match decode r with
  | some evt => !(cc.EvalRules evt).1
  | none => false

/-- Whether the dotted field resolves on the record to a present value
that is not a string (the case the two evaluators treat differently). -/
def isPresentNonString (evt : JsonObj) (field : Str) : Bool :=
  match FieldExists field evt with
  | (true, some (JsonValue.str _)) => false
  | (true, _) => true
  | (false, _) => false

/-- First segment of `splitOnDot` is non-empty and starts with a letter. -/
def firstSegAlpha (cs : Str) : Bool :=
  match splitOnDot cs with
  | s :: _ =>
    (match s with
     | [] => false
     | c :: _ => c.isAlpha)
  | [] => false

/-- All segments of `splitOnDot` after the first are non-empty. -/
def restSegsNonEmpty (cs : Str) : Bool :=
  ((splitOnDot cs).tail).all fun s => !s.isEmpty

/-- All segments of `splitOnDot` (including the first) are non-empty. -/
def allSegsNonEmpty (cs : Str) : Bool :=
  (splitOnDot cs).all fun s => !s.isEmpty

/-- All characters of all segments of `splitOnDot` are in the segment
class `[A-Za-z0-9_-]`. -/
def allSegsClass (cs : Str) : Bool :=
  (splitOnDot cs).all fun s => s.all segClass

/-- A matcher accepting everything (a compiled `.*`). -/
def matcherTrue : Matcher := fun _ => true

/-- A compile function under which every pattern compiles (to the
all-accepting matcher); used for concrete instances whose patterns are
`.*`-like. -/
def compileAll : Str → Option Matcher := fun _ => some matcherTrue

/-- The compilability predicate corresponding to `compileAll`. -/
def compilesAll : Str → Bool := fun _ => true

/-- A matcher for the literal text `DropMe`. -/
def patDropMe : Matcher := fun s => s = ("DropMe").data

/-- A one-rule compiled configuration dropping records whose `eventName`
is `DropMe`. -/
def ccDropMe : CachedConfiguration :=
  ⟨[⟨("dropRule").data, [⟨("eventName").data, patDropMe⟩]⟩]⟩

/-- A raw record (opaque bytes) decoding to `eventName = DropMe`. -/
def recW1 : RawRecord := ("r1").data

/-- A raw record decoding to `eventName = KeepMe`. -/
def recW2 : RawRecord := ("r2").data

/-- A concrete decode function for `recW1` and `recW2`. -/
def decodeW : RawRecord → Option JsonObj := fun r =>
  if r = recW1 then some [(("eventName").data, JsonValue.str ("DropMe").data)]
  else if r = recW2 then some [(("eventName").data, JsonValue.str ("KeepMe").data)]
  else none

/-- A rule with the single match `a =~ .*`. -/
def ruleNum : Rule := ⟨("r1").data, [⟨("a").data, (".*").data⟩]⟩

/-- The one-rule configuration around `ruleNum`. -/
def cfgNum : Configuration := ⟨[ruleNum]⟩

/-- A record whose field `a` is the number 5 (present, not a string). -/
def evtNum : JsonObj := [(("a").data, JsonValue.num 5)]

/-- A record whose field `a` is the string `hello`. -/
def evtStr : JsonObj := [(("a").data, JsonValue.str ("hello").data)]

/-- A nested record used to instantiate the field-resolution claims:
`a` maps to the object `\x7b b : "x" \x7d` and `q` to an (empty) array. -/
def objC5 : JsonObj :=
  [(("a").data, JsonValue.obj [(("b").data, JsonValue.str ("x").data)]),
   (("q").data, JsonValue.arr [])]

/-- The empty compiled configuration (keeps everything). -/
def ccEmpty : CachedConfiguration := ⟨[]⟩

/-- A decode function that decodes every record to the empty mapping. -/
def decodeTriv : RawRecord → Option JsonObj := fun _ => some []

/-- A one-line CloudTrail-shaped input whose `Records` array is empty
and which carries another object *after* the `]` that closes the array:
`{"Records":[],"Other":[{"x":"y"}]}`. -/
def c6Line : Str := ("\x7b\"Records\":[],\"Other\":[\x7b\"x\":\"y\"\x7d]\x7d").data

/-- The object `{"x":"y"}` that follows the closed `Records` array on
`c6Line`. -/
def c6Rec : RawRecord := ("\x7b\"x\":\"y\"\x7d").data

/-- A one-line input whose `Records` array holds a record that will fail
to decode followed by a well-formed one:
`{"Records":[{"bad":0},{"x":"y"}]}`. -/
def c7Line : Str := ("\x7b\"Records\":[\x7b\"bad\":0\x7d,\x7b\"x\":\"y\"\x7d]\x7d").data

/-- The first record of `c7Line`: `{"bad":0}`. -/
def c7Bad : RawRecord := ("\x7b\"bad\":0\x7d").data

/-- A decode function failing exactly on `c7Bad`. -/
def decodeC7 : RawRecord → Option JsonObj :=
  fun r => if r = c7Bad then none else some []

/-- A run of `n` letters `a` (a compilable, screen-clean pattern text of
length `n`). -/
def aRun (n : Nat) : Str := List.replicate n 'a'

/-! ## Theorems -/

theorem evalCachedRules_find (evt : JsonObj) (rs : List CachedRule) :
    evalCachedRules evt rs =
      match rs.find? (fun r => (CachedRule.Eval r evt).1) with
      | some r => (true, some ⟨r.name⟩)
      | none => (false, none) := by
  induction rs with
  | nil => simp [evalCachedRules]
  | cons r rest ih =>
    by_cases h : evalCachedMatches evt r.matchList
    · rw [List.find?_cons_of_pos _ (by simp [CachedRule.Eval, h])]
      simp [evalCachedRules, CachedRule.Eval, h]
    · rw [List.find?_cons_of_neg _ (by simp [CachedRule.Eval, h])]
      simpa [evalCachedRules, CachedRule.Eval, h] using ih

/-- Claim C1: for every decoded record and compiled rule set,
`CachedConfiguration.EvalRules` returns the drop decision `true`
together with the name of the first rule (in declared order) that
matches — iteration stops there — and `(false, none)` when no rule
matches; in particular the drop decision is `true` iff some rule of the
set matches the record. -/
theorem cachedEvalRules_first_match_spec (cc : CachedConfiguration)
    (evt : JsonObj) :
    (cc.EvalRules evt =
      match cc.rules.find? (fun r => (CachedRule.Eval r evt).1) with
      | some r => (true, some ⟨r.name⟩)
      | none => (false, none))
    ∧ ((cc.EvalRules evt).1 = true ↔
        ∃ r ∈ cc.rules, (CachedRule.Eval r evt).1 = true) := by
  refine ⟨evalCachedRules_find evt cc.rules, ?_⟩
  show (evalCachedRules evt cc.rules).1 = true ↔ _
  rw [evalCachedRules_find evt cc.rules]
  cases hf : cc.rules.find? (fun r => (CachedRule.Eval r evt).1) with
  | some r =>
    simp only [true_iff]
    exact ⟨r, List.mem_of_find?_eq_some hf, by simpa using List.find?_some hf⟩
  | none =>
    simp only [Bool.false_eq_true, false_iff]
    rintro ⟨r, hr, hp⟩
    exact absurd hp (by simpa using List.find?_eq_none.mp hf r hr)

theorem filterRecords_ok_eq (decode : RawRecord → Option JsonObj)
    (cc : CachedConfiguration) :
    ∀ recs out, FilterRecords decode cc recs = .ok out →
      out = recs.filter (keepRecord decode cc) := by
  intro recs
  induction recs with
  | nil =>
    intro out h
    simp only [FilterRecords] at h
    cases h
    rfl
  | cons r rest ih =>
    intro out h
    cases hd : decode r with
    | none => simp [FilterRecords, hd] at h
    | some evt =>
      simp only [FilterRecords, hd] at h
      have hk : keepRecord decode cc r = !(cc.EvalRules evt).1 := by
        simp [keepRecord, hd]
      by_cases hm : (cc.EvalRules evt).1 = true
      · rw [if_pos hm] at h
        rw [List.filter_cons, hk, hm]
        simpa using ih out h
      · rw [if_neg hm] at h
        have hm2 : (cc.EvalRules evt).1 = false := by
          revert hm; cases (cc.EvalRules evt).1 <;> simp
        cases hrest : FilterRecords decode cc rest with
        | error e => rw [hrest] at h; cases h
        | ok out2 =>
          rw [hrest] at h
          cases h
          rw [List.filter_cons, hk, hm2]
          simpa using ih out2 hrest

theorem filterRecords_all_keep (decode : RawRecord → Option JsonObj)
    (cc : CachedConfiguration) :
    ∀ recs, (∀ r ∈ recs, keepRecord decode cc r = true) →
      FilterRecords decode cc recs = .ok recs := by
  intro recs
  induction recs with
  | nil => intro _; rfl
  | cons r rest ih =>
    intro hall
    have hr := hall r (by simp)
    cases hd : decode r with
    | none => simp [keepRecord, hd] at hr
    | some evt =>
      have hm : (cc.EvalRules evt).1 = false := by
        simpa [keepRecord, hd] using hr
      simp only [FilterRecords, hd, hm]
      rw [ih (fun x hx => hall x (by simp [hx]))]
      simp

/-- Claim C2: for every rule set and input document, `FilterRecords`
returns exactly the input records whose evaluation keeps them, as the
original byte slices, in input order (`List.filter` of the keep
predicate); and `FilterRecords` is a fixed point on its own output. -/
theorem filterRecords_filter_fixed_point (decode : RawRecord → Option JsonObj)
    (cc : CachedConfiguration) (recs out : List RawRecord)
    (h : FilterRecords decode cc recs = .ok out) :
    out = recs.filter (keepRecord decode cc) ∧
      FilterRecords decode cc out = .ok out := by
  have h1 := filterRecords_ok_eq decode cc recs out h
  refine ⟨h1, filterRecords_all_keep decode cc out ?_⟩
  intro r hr
  rw [h1] at hr
  exact (List.mem_filter.mp hr).2

/-- Witness for C2 at a concrete input: the record decoding to
`eventName = DropMe` is dropped, the one decoding to `KeepMe` is kept
unchanged, and re-filtering the output is the identity. -/
theorem filterRecords_filter_fixed_point_witness :
    FilterRecords decodeW ccDropMe [recW1, recW2] = .ok [recW2] ∧
      ([recW2] = [recW1, recW2].filter (keepRecord decodeW ccDropMe) ∧
        FilterRecords decodeW ccDropMe [recW2] = .ok [recW2]) :=
  ⟨rfl, filterRecords_filter_fixed_point decodeW ccDropMe [recW1, recW2] [recW2] rfl⟩

theorem evalCachedMatches_eq_all (evt : JsonObj) :
    ∀ ms, evalCachedMatches evt ms = ms.all (cachedMatchOk evt) := by
  intro ms
  induction ms with
  | nil => rfl
  | cons m rest ih =>
    rcases hf : FieldExists m.fieldName evt with ⟨b, v⟩
    cases b
    · simp [evalCachedMatches, cachedMatchOk, hf]
    · cases v with
      | none => simp [evalCachedMatches, cachedMatchOk, hf]
      | some val =>
        cases val with
        | str s =>
          cases hp : m.pattern s <;>
            simp [evalCachedMatches, cachedMatchOk, hf, hp, ih]
        | num n => simp [evalCachedMatches, cachedMatchOk, hf]
        | boolean bb => simp [evalCachedMatches, cachedMatchOk, hf]
        | null => simp [evalCachedMatches, cachedMatchOk, hf]
        | arr xs => simp [evalCachedMatches, cachedMatchOk, hf]
        | obj o => simp [evalCachedMatches, cachedMatchOk, hf]

theorem cachedMatchOk_false_of_absent (evt : JsonObj) (m : CachedMatch)
    (h : (FieldExists m.fieldName evt).1 = false) :
    cachedMatchOk evt m = false := by
  rcases hf : FieldExists m.fieldName evt with ⟨b, v⟩
  rw [hf] at h
  subst h
  simp [cachedMatchOk, hf]

theorem cachedMatchOk_false_of_nonString (evt : JsonObj) (m : CachedMatch)
    (h : isPresentNonString evt m.fieldName = true) :
    cachedMatchOk evt m = false := by
  rcases hf : FieldExists m.fieldName evt with ⟨b, v⟩
  rw [isPresentNonString, hf] at h
  cases b
  · simp at h
  · cases v with
    | none => simp [cachedMatchOk, hf]
    | some val => cases val <;> simp_all [cachedMatchOk, hf]

theorem ruleEvalLoop_false (compile : Str → Option Matcher) (evt : JsonObj) :
    ∀ ms, (ruleEvalLoop compile evt ms false).1 = false := by
  intro ms
  induction ms with
  | nil => rfl
  | cons m rest ih =>
    rcases hf : FieldExists m.fieldName evt with ⟨b, v⟩
    cases b
    · simpa [ruleEvalLoop, hf] using ih
    · cases v with
      | none => simpa [ruleEvalLoop, hf] using ih
      | some val =>
        cases val with
        | str s =>
          cases hc : compile m.regex with
          | none => simp [ruleEvalLoop, hf, hc]
          | some p => simpa [ruleEvalLoop, hf, hc] using ih
        | num n => simpa [ruleEvalLoop, hf] using ih
        | boolean bb => simpa [ruleEvalLoop, hf] using ih
        | null => simpa [ruleEvalLoop, hf] using ih
        | arr xs => simpa [ruleEvalLoop, hf] using ih
        | obj o => simpa [ruleEvalLoop, hf] using ih

theorem ruleEvalLoop_absent_member (compile : Str → Option Matcher)
    (evt : JsonObj) (m : MatchCond)
    (hab : (FieldExists m.fieldName evt).1 = false) :
    ∀ ms b, m ∈ ms → (ruleEvalLoop compile evt ms b).1 = false := by
  intro ms
  induction ms with
  | nil => intro b hmem; cases hmem
  | cons m2 rest ih =>
    intro b hmem
    rcases List.mem_cons.mp hmem with rfl | hmem2
    · rcases hf : FieldExists m.fieldName evt with ⟨bb, v⟩
      rw [hf] at hab
      subst hab
      simpa [ruleEvalLoop, hf] using ruleEvalLoop_false compile evt rest
    · rcases hf : FieldExists m2.fieldName evt with ⟨bb, v⟩
      cases bb
      · simpa [ruleEvalLoop, hf] using ruleEvalLoop_false compile evt rest
      · cases v with
        | none => simpa [ruleEvalLoop, hf] using ih _ hmem2
        | some val =>
          cases val with
          | str s =>
            cases hc : compile m2.regex with
            | none => simp [ruleEvalLoop, hf, hc]
            | some p => simpa [ruleEvalLoop, hf, hc] using ih _ hmem2
          | num n => simpa [ruleEvalLoop, hf] using ih _ hmem2
          | boolean b2 => simpa [ruleEvalLoop, hf] using ih _ hmem2
          | null => simpa [ruleEvalLoop, hf] using ih _ hmem2
          | arr xs => simpa [ruleEvalLoop, hf] using ih _ hmem2
          | obj o => simpa [ruleEvalLoop, hf] using ih _ hmem2

theorem ruleEval_fst_eq_loop_fst (compile : Str → Option Matcher)
    (r : Rule) (evt : JsonObj)
    (h : (ruleEvalLoop compile evt r.matchList true).1 = false) :
    (Rule.Eval compile r evt).1 = false := by
  rcases hl : ruleEvalLoop compile evt r.matchList true with ⟨b, e⟩
  rw [hl] at h
  simp at h
  subst h
  cases e <;> simp [Rule.Eval, hl]

theorem ruleEvalLoop_skip_nonString (compile : Str → Option Matcher)
    (evt : JsonObj) (m : MatchCond)
    (h : isPresentNonString evt m.fieldName = true) :
    ∀ ms b, ruleEvalLoop compile evt (m :: ms) b = ruleEvalLoop compile evt ms b := by
  intro ms b
  rcases hf : FieldExists m.fieldName evt with ⟨bb, v⟩
  rw [isPresentNonString, hf] at h
  cases bb
  · simp at h
  · cases v with
    | none => simp [ruleEvalLoop, hf]
    | some val => cases val <;> simp_all [ruleEvalLoop, hf]

theorem ruleEvalLoop_append (compile : Str → Option Matcher) (evt : JsonObj) :
    ∀ pre ms b, ruleEvalLoop compile evt (pre ++ ms) b =
      match ruleEvalLoop compile evt pre b with
      | (b2, none) => ruleEvalLoop compile evt ms b2
      | (b2, some e) => (b2, some e) := by
  intro pre
  induction pre with
  | nil => intro ms b; simp [ruleEvalLoop]
  | cons m rest ih =>
    intro ms b
    rcases hf : FieldExists m.fieldName evt with ⟨bb, v⟩
    cases bb
    · simpa [ruleEvalLoop, hf] using ih ms (b && false)
    · cases v with
      | none => simpa [ruleEvalLoop, hf] using ih ms b
      | some val =>
        cases val with
        | str s =>
          cases hc : compile m.regex with
          | none => simp [ruleEvalLoop, hf, hc]
          | some p => simpa [ruleEvalLoop, hf, hc] using ih ms (b && p s)
        | num n => simpa [ruleEvalLoop, hf] using ih ms b
        | boolean b2 => simpa [ruleEvalLoop, hf] using ih ms b
        | null => simpa [ruleEvalLoop, hf] using ih ms b
        | arr xs => simpa [ruleEvalLoop, hf] using ih ms b
        | obj o => simpa [ruleEvalLoop, hf] using ih ms b

/-- Claim C3 (amended): a match whose field is absent makes the rule not
match under both evaluators; a match whose field is present but not a
string makes the rule not match under the compiled `CachedRule.Eval`,
but under the uncompiled `Rule.Eval` such a match is *skipped* (the rule
evaluates as if the match were not there), so it does not by itself
prevent the rule from matching. -/
theorem rule_nonstring_absent_semantics :
    (∀ (cr : CachedRule) (evt : JsonObj), ∀ m ∈ cr.matchList,
      (FieldExists m.fieldName evt).1 = false →
        (CachedRule.Eval cr evt).1 = false)
    ∧ (∀ (cr : CachedRule) (evt : JsonObj), ∀ m ∈ cr.matchList,
      isPresentNonString evt m.fieldName = true →
        (CachedRule.Eval cr evt).1 = false)
    ∧ (∀ (compile : Str → Option Matcher) (r : Rule) (evt : JsonObj),
      ∀ m ∈ r.matchList, (FieldExists m.fieldName evt).1 = false →
        (Rule.Eval compile r evt).1 = false)
    ∧ (∀ (compile : Str → Option Matcher) (nm : Str) (evt : JsonObj)
        (pre post : List MatchCond) (m : MatchCond),
      isPresentNonString evt m.fieldName = true →
        Rule.Eval compile ⟨nm, pre ++ m :: post⟩ evt =
          Rule.Eval compile ⟨nm, pre ++ post⟩ evt) := by
  refine ⟨?_, ?_, ?_, ?_⟩
  · intro cr evt m hmem hab
    have hok := cachedMatchOk_false_of_absent evt m hab
    have : cr.matchList.all (cachedMatchOk evt) = false :=
      List.all_eq_false.mpr ⟨m, hmem, by simp [hok]⟩
    simp [CachedRule.Eval, evalCachedMatches_eq_all, this]
  · intro cr evt m hmem hns
    have hok := cachedMatchOk_false_of_nonString evt m hns
    have : cr.matchList.all (cachedMatchOk evt) = false :=
      List.all_eq_false.mpr ⟨m, hmem, by simp [hok]⟩
    simp [CachedRule.Eval, evalCachedMatches_eq_all, this]
  · intro compile r evt m hmem hab
    exact ruleEval_fst_eq_loop_fst compile r evt
      (ruleEvalLoop_absent_member compile evt m hab r.matchList true hmem)
  · intro compile nm evt pre post m hns
    show Rule.Eval compile ⟨nm, pre ++ m :: post⟩ evt =
      Rule.Eval compile ⟨nm, pre ++ post⟩ evt
    unfold Rule.Eval
    rw [show (⟨nm, pre ++ m :: post⟩ : Rule).matchList = pre ++ m :: post from rfl,
        show (⟨nm, pre ++ post⟩ : Rule).matchList = pre ++ post from rfl,
        ruleEvalLoop_append, ruleEvalLoop_append]
    rcases ruleEvalLoop compile evt pre true with ⟨b2, e⟩
    cases e with
    | none =>
      dsimp only
      rw [ruleEvalLoop_skip_nonString compile evt m hns post b2]
    | some err => rfl

/-- Witness for the amended C3 at concrete inputs: a rule whose only
match refers to the missing field `zz` does not match `evtStr` under
either evaluator, and prepending the non-string match on `a` to a rule
leaves the uncompiled evaluation of `evtNum` unchanged. -/
theorem rule_nonstring_absent_semantics_witness :
    (CachedRule.Eval ⟨("r2").data, [⟨("zz").data, matcherTrue⟩]⟩ evtStr).1 = false
    ∧ (Rule.Eval compileAll ⟨("r2").data, [⟨("zz").data, (".*").data⟩]⟩ evtStr).1 = false
    ∧ (CachedRule.Eval ⟨("r3").data, [⟨("a").data, matcherTrue⟩]⟩ evtNum).1 = false
    ∧ Rule.Eval compileAll ⟨("r3").data, [⟨("a").data, (".*").data⟩] ++ ⟨("a").data, (".*").data⟩ :: []⟩ evtNum =
        Rule.Eval compileAll ⟨("r3").data, [⟨("a").data, (".*").data⟩] ++ []⟩ evtNum := by
  refine ⟨?_, ?_, ?_, ?_⟩
  · exact rule_nonstring_absent_semantics.1
      ⟨("r2").data, [⟨("zz").data, matcherTrue⟩]⟩ evtStr
      ⟨("zz").data, matcherTrue⟩ (List.mem_cons_self _ _) (by rfl)
  · exact rule_nonstring_absent_semantics.2.2.1 compileAll
      ⟨("r2").data, [⟨("zz").data, (".*").data⟩]⟩ evtStr
      ⟨("zz").data, (".*").data⟩ (List.mem_cons_self _ _) (by rfl)
  · exact rule_nonstring_absent_semantics.2.1
      ⟨("r3").data, [⟨("a").data, matcherTrue⟩]⟩ evtNum
      ⟨("a").data, matcherTrue⟩ (List.mem_cons_self _ _) (by rfl)
  · exact rule_nonstring_absent_semantics.2.2.2 compileAll (("r3").data) evtNum
      [⟨("a").data, (".*").data⟩] [] ⟨("a").data, (".*").data⟩ (by rfl)

/-- Counterexample to C3 as stated: the record `evtNum` has field `a`
present with a non-string value, the single match of `ruleNum` refers to
`a`, yet the uncompiled `Rule.Eval` reports the rule as *matching*
(`true`), because the non-string match is skipped. -/
theorem rule_nonstring_counterexample :
    isPresentNonString evtNum (("a").data) = true
    ∧ (ruleNum.matchList.map (fun m => m.fieldName)) = [("a").data]
    ∧ (Rule.Eval compileAll ruleNum evtNum).1 = true := by
  exact ⟨rfl, rfl, rfl⟩

theorem ruleEvalLoop_eq_cached (compile : Str → Option Matcher) (evt : JsonObj) :
    ∀ ms cms b, prepareMatches compile ms = some cms →
      (∀ m ∈ ms, isPresentNonString evt m.fieldName = false) →
      ruleEvalLoop compile evt ms b = (b && evalCachedMatches evt cms, none) := by
  intro ms
  induction ms with
  | nil =>
    intro cms b hp hn
    simp only [prepareMatches, Option.some.injEq] at hp
    subst hp
    simp [ruleEvalLoop, evalCachedMatches]
  | cons m rest ih =>
    intro cms b hp hn
    cases hc : compile m.regex with
    | none => simp [prepareMatches, hc] at hp
    | some p =>
      cases hr : prepareMatches compile rest with
      | none => simp [prepareMatches, hc, hr] at hp
      | some cms2 =>
        simp only [prepareMatches, hc, hr, Option.bind_eq_bind, Option.some_bind,
          Option.pure_def, Option.some.injEq] at hp
        subst hp
        have hn2 : ∀ m2 ∈ rest, isPresentNonString evt m2.fieldName = false :=
          fun m2 hm2 => hn m2 (List.mem_cons_of_mem _ hm2)
        rcases hf : FieldExists m.fieldName evt with ⟨bb, v⟩
        cases bb
        · rw [show (ruleEvalLoop compile evt (m :: rest) b) =
              ruleEvalLoop compile evt rest (b && false) by simp [ruleEvalLoop, hf]]
          rw [ih cms2 (b && false) hr hn2]
          simp [evalCachedMatches, hf]
        · cases v with
          | none =>
            have := hn m (List.mem_cons_self _ _)
            rw [isPresentNonString, hf] at this
            simp at this
          | some val =>
            cases val with
            | str s =>
              rw [show (ruleEvalLoop compile evt (m :: rest) b) =
                  ruleEvalLoop compile evt rest (b && p s) by
                    simp [ruleEvalLoop, hf, hc]]
              rw [ih cms2 (b && p s) hr hn2]
              cases hps : p s <;>
                simp [evalCachedMatches, hf, hps, Bool.and_assoc]
            | num n =>
              have := hn m (List.mem_cons_self _ _)
              rw [isPresentNonString, hf] at this
              simp at this
            | boolean b2 =>
              have := hn m (List.mem_cons_self _ _)
              rw [isPresentNonString, hf] at this
              simp at this
            | null =>
              have := hn m (List.mem_cons_self _ _)
              rw [isPresentNonString, hf] at this
              simp at this
            | arr xs =>
              have := hn m (List.mem_cons_self _ _)
              rw [isPresentNonString, hf] at this
              simp at this
            | obj o =>
              have := hn m (List.mem_cons_self _ _)
              rw [isPresentNonString, hf] at this
              simp at this

theorem ruleEval_eq_cached (compile : Str → Option Matcher) (evt : JsonObj)
    (r : Rule) (cr : CachedRule) (hp : prepareRule compile r = some cr)
    (hn : ∀ m ∈ r.matchList, isPresentNonString evt m.fieldName = false) :
    Rule.Eval compile r evt =
      ((CachedRule.Eval cr evt).1, (CachedRule.Eval cr evt).2, none) := by
  cases hm : prepareMatches compile r.matchList with
  | none => simp [prepareRule, hm] at hp
  | some ms =>
    simp only [prepareRule, hm, Option.bind_eq_bind, Option.some_bind,
      Option.pure_def, Option.some.injEq] at hp
    subst hp
    have hl := ruleEvalLoop_eq_cached compile evt r.matchList ms true hm hn
    unfold Rule.Eval
    rw [hl]
    simp [CachedRule.Eval]

theorem evalConfigRules_eq_cached (compile : Str → Option Matcher)
    (evt : JsonObj) :
    ∀ rs crs, prepareRules compile rs = some crs →
      (∀ r ∈ rs, ∀ m ∈ r.matchList, isPresentNonString evt m.fieldName = false) →
      evalConfigRules compile evt rs =
        ((evalCachedRules evt crs).1, (evalCachedRules evt crs).2, none) := by
  intro rs
  induction rs with
  | nil =>
    intro crs hp hn
    simp only [prepareRules, Option.some.injEq] at hp
    subst hp
    rfl
  | cons r rest ih =>
    intro crs hp hn
    cases hr : prepareRule compile r with
    | none => simp [prepareRules, hr] at hp
    | some cr =>
      cases hrs : prepareRules compile rest with
      | none => simp [prepareRules, hr, hrs] at hp
      | some crs2 =>
        simp only [prepareRules, hr, hrs, Option.bind_eq_bind, Option.some_bind,
          Option.pure_def, Option.some.injEq] at hp
        subst hp
        have hre := ruleEval_eq_cached compile evt r cr hr
          (hn r (List.mem_cons_self _ _))
        have hn2 : ∀ r2 ∈ rest, ∀ m ∈ r2.matchList,
            isPresentNonString evt m.fieldName = false :=
          fun r2 h2 => hn r2 (List.mem_cons_of_mem _ h2)
        simp only [evalConfigRules, hre]
        cases hb : (CachedRule.Eval cr evt).1
        · simpa [evalCachedRules, hb] using ih crs2 hrs hn2
        · simp [evalCachedRules, hb]

/-- Claim C4 (amended): for every configuration accepted by
`PrepareConfiguration` and every record in which no evaluated match
field resolves to a present non-string value, the uncompiled
`Configuration.EvalRules` and the compiled
`CachedConfiguration.EvalRules` return the same drop decision and the
same reported rule name (and the uncompiled evaluator returns no
error).  Without the non-string restriction the two evaluators can
disagree (see the counterexample). -/
theorem evalRules_uncompiled_eq_compiled (compile : Str → Option Matcher)
    (cfg : Configuration) (cc : CachedConfiguration) (evt : JsonObj)
    (hp : PrepareConfiguration compile cfg = some cc)
    (hn : ∀ r ∈ cfg.rules, ∀ m ∈ r.matchList,
      isPresentNonString evt m.fieldName = false) :
    Configuration.EvalRules compile cfg evt =
      ((cc.EvalRules evt).1, (cc.EvalRules evt).2, none) := by
  cases hm : prepareRules compile cfg.rules with
  | none => simp [PrepareConfiguration, hm] at hp
  | some rs =>
    simp only [PrepareConfiguration, hm, Option.bind_eq_bind, Option.some_bind,
      Option.pure_def, Option.some.injEq] at hp
    subst hp
    exact evalConfigRules_eq_cached compile evt cfg.rules rs hm hn

/-- Witness for the amended C4: on the all-string record `evtStr`, the
uncompiled and the compiled evaluator of `cfgNum` agree (both drop, with
rule name `r1`). -/
theorem evalRules_uncompiled_eq_compiled_witness :
    Configuration.EvalRules compileAll cfgNum evtStr =
      ((((PrepareConfiguration compileAll cfgNum).getD ccEmpty).EvalRules evtStr).1,
       (((PrepareConfiguration compileAll cfgNum).getD ccEmpty).EvalRules evtStr).2,
       none)
    ∧ (Configuration.EvalRules compileAll cfgNum evtStr).1 = true := by
  refine ⟨?_, rfl⟩
  exact evalRules_uncompiled_eq_compiled compileAll cfgNum
    ((PrepareConfiguration compileAll cfgNum).getD ccEmpty) evtStr (by rfl)
    (by intro r hr m hm
        simp only [cfgNum, ruleNum, List.mem_singleton] at hr
        subst hr
        simp only [List.mem_singleton] at hm
        subst hm
        rfl)

/-- Counterexample to C4 as stated: `cfgNum` is accepted by
`PrepareConfiguration`, yet on the record `evtNum` (field `a` present
as a number) the uncompiled evaluator drops the record while the
compiled evaluator keeps it. -/
theorem evalRules_uncompiled_ne_compiled_counterexample :
    (PrepareConfiguration compileAll cfgNum).isSome = true
    ∧ (Configuration.EvalRules compileAll cfgNum evtNum).1 = true
    ∧ (((PrepareConfiguration compileAll cfgNum).getD ccEmpty).EvalRules evtNum).1
        = false := by
  exact ⟨rfl, rfl, rfl⟩

/-- Claim C5: `FieldExists` splits the dotted path and resolves it with
`findField`, which returns `(false, none)` when a key lookup misses or
when the value at a non-final segment is not a mapping; it descends into
mappings; at the final segment it returns `(true, value)` exactly when
the value is present and is not a mapping (so sequences are returned as
present values, while a mapping at the final segment counts as not
present). -/
theorem fieldExists_resolution_spec :
    (∀ field evt, FieldExists field evt = findField evt (splitOnDot field))
    ∧ (∀ (o : JsonObj) p rest, lookupField o p = none →
        findField o (p :: rest) = (false, none))
    ∧ (∀ (o : JsonObj) p rest v, rest ≠ [] → lookupField o p = some v →
        v.isMapping = false → findField o (p :: rest) = (false, none))
    ∧ (∀ (o : JsonObj) p rest (nested : JsonObj),
        lookupField o p = some (JsonValue.obj nested) →
        findField o (p :: rest) = findField nested rest)
    ∧ (∀ (o : JsonObj) p (nested : JsonObj),
        lookupField o p = some (JsonValue.obj nested) →
        findField o [p] = (false, none))
    ∧ (∀ (o : JsonObj) p v, findField o [p] = (true, some v) ↔
        lookupField o p = some v ∧ v.isMapping = false) := by
  refine ⟨fun _ _ => rfl, ?_, ?_, ?_, ?_, ?_⟩
  · intro o p rest h
    simp [findField, h]
  · intro o p rest v hne h hv
    cases rest with
    | nil => exact absurd rfl hne
    | cons a as => cases v <;> simp_all [findField, JsonValue.isMapping]
  · intro o p rest nested h
    simp [findField, h]
  · intro o p nested h
    simp [findField, h]
  · intro o p v
    constructor
    · intro h
      cases hl : lookupField o p with
      | none => simp [findField, hl] at h
      | some w =>
        cases hmw : w.isMapping with
        | true =>
          cases w with
          | obj fields => simp [findField, hl] at h
          | str s2 => exact absurd hmw (by simp [JsonValue.isMapping])
          | num n => exact absurd hmw (by simp [JsonValue.isMapping])
          | boolean b2 => exact absurd hmw (by simp [JsonValue.isMapping])
          | null => exact absurd hmw (by simp [JsonValue.isMapping])
          | arr xs => exact absurd hmw (by simp [JsonValue.isMapping])
        | false =>
          have hw : findField o [p] = (true, some w) := by
            cases w with
            | obj fields => exact absurd hmw (by simp [JsonValue.isMapping])
            | str s2 => simp [findField, hl]
            | num n => simp [findField, hl]
            | boolean b2 => simp [findField, hl]
            | null => simp [findField, hl]
            | arr xs => simp [findField, hl]
          rw [hw] at h
          have hv : w = v := by
            have h2 := congrArg Prod.snd h
            simpa using h2
          subst hv
          exact ⟨rfl, hmw⟩
    · rintro ⟨hl, hv⟩
      cases v <;> simp_all [findField, JsonValue.isMapping]

/-- Witness for C5 at the concrete record `objC5`: a missing key, a
mapping at the final segment, a sequence at the final segment, and a
two-segment path resolving through a nested mapping. -/
theorem fieldExists_resolution_spec_witness :
    findField objC5 [("zz").data] = (false, none)
    ∧ findField objC5 [("a").data] = (false, none)
    ∧ findField objC5 [("q").data] = (true, some (JsonValue.arr []))
    ∧ FieldExists ("a.b").data objC5 = (true, some (JsonValue.str ("x").data)) := by
  refine ⟨?_, ?_, ?_, ?_⟩
  · exact fieldExists_resolution_spec.2.1 objC5 (("zz").data) [] (by rfl)
  · exact fieldExists_resolution_spec.2.2.2.2.1 objC5 (("a").data)
      [(("b").data, JsonValue.str ("x").data)] (by rfl)
  · exact (fieldExists_resolution_spec.2.2.2.2.2 objC5 (("q").data)
      (JsonValue.arr [])).mpr ⟨rfl, rfl⟩
  · rw [fieldExists_resolution_spec.1]
    rw [show splitOnDot ("a.b").data = [("a").data, ("b").data] from rfl]
    rw [fieldExists_resolution_spec.2.2.2.1 objC5 (("a").data) [("b").data]
      [(("b").data, JsonValue.str ("x").data)] (by rfl)]
    exact (fieldExists_resolution_spec.2.2.2.2.2 _ (("b").data) _).mpr ⟨rfl, rfl⟩

/-- Claim C6 (showing the code bug): on the one-line input `c6Line`,
whose `Records` array is closed by a `]` at bracket depth 0 before the
object `c6Rec` appears, the streaming extractor nevertheless emits
`c6Rec` (hands it to `processRecord`, which counts and outputs it): the
Go `break` in the `]` case leaves only the `switch`, not the byte loop,
so the remainder of the line containing the `]` is still scanned instead
of being ignored. -/
theorem processStream_emits_after_array_close :
    (ProcessStream decodeTriv ccEmpty [c6Line]).emitted = [c6Rec]
    ∧ (ProcessStream decodeTriv ccEmpty [c6Line]).kept = [c6Rec]
    ∧ (ProcessStream decodeTriv ccEmpty [c6Line]).processedCount = 1 := by
  exact ⟨rfl, rfl, rfl⟩

/-- Counterexample to C7 as stated: on the streaming path a record
decode failure is *not* fatal.  On `c7Line` the record `c7Bad` fails to
decode (`decodeC7 c7Bad = none`), yet `ProcessStream` completes without
failing: the error is only counted, the bad record is skipped, and the
following record is still written to the output. -/
theorem processStream_decode_failure_not_fatal :
    decodeC7 c7Bad = none
    ∧ (ProcessStream decodeC7 ccEmpty [c7Line]).emitted = [c7Bad, c6Rec]
    ∧ (ProcessStream decodeC7 ccEmpty [c7Line]).errorCount = 1
    ∧ (ProcessStream decodeC7 ccEmpty [c7Line]).kept = [c6Rec] := by
  exact ⟨rfl, rfl, rfl, rfl⟩

/-- Claim C7 (amended): a record decode failure is fatal on the *batch*
path — `FilterRecords` returns the unmarshal error and produces no
output — while on the *streaming* path `processRecord` merely counts
the failure and skips the record, leaving the output and all other
state unchanged, and processing continues. -/
theorem decode_failure_fatal_batch_not_streaming :
    (∀ (decode : RawRecord → Option JsonObj) (cc : CachedConfiguration)
        (recs : List RawRecord), (∃ r ∈ recs, decode r = none) →
      FilterRecords decode cc recs = .error ("unmarshal record failed").data)
    ∧ (∀ (decode : RawRecord → Option JsonObj) (cc : CachedConfiguration)
        (rec : RawRecord) (st : StreamState), decode rec = none →
      processRecord decode cc rec st =
        { st with processedCount := st.processedCount + 1,
                  emitted := st.emitted ++ [rec],
                  errorCount := st.errorCount + 1 }) := by
  constructor
  · intro decode cc recs
    induction recs with
    | nil => rintro ⟨r, hr, -⟩; cases hr
    | cons r rest ih =>
      rintro ⟨r2, hr2, hd2⟩
      rcases List.mem_cons.mp hr2 with rfl | hmem
      · simp [FilterRecords, hd2]
      · cases hd : decode r with
        | none => simp [FilterRecords, hd]
        | some evt =>
          have hrest := ih ⟨r2, hmem, hd2⟩
          by_cases hm : (cc.EvalRules evt).1 = true
          · simp [FilterRecords, hd, hm, hrest]
          · have hm2 : (cc.EvalRules evt).1 = false := by
              revert hm; cases (cc.EvalRules evt).1 <;> simp
            simp [FilterRecords, hd, hm2, hrest]
  · intro decode cc rec st hd
    simp [processRecord, hd]

/-- Witness for the amended C7: the batch filter fails on `[c7Bad]`
under `decodeC7`, and `processRecord` on the same record from the
initial stream state only advances the counters. -/
theorem decode_failure_fatal_batch_not_streaming_witness :
    FilterRecords decodeC7 ccEmpty [c7Bad] = .error ("unmarshal record failed").data
    ∧ processRecord decodeC7 ccEmpty c7Bad initialStreamState =
        { initialStreamState with processedCount := 1,
                                  emitted := [c7Bad], errorCount := 1 } := by
  constructor
  · exact decode_failure_fatal_batch_not_streaming.1 decodeC7 ccEmpty [c7Bad]
      ⟨c7Bad, List.mem_cons_self _ _, rfl⟩
  · exact decode_failure_fatal_batch_not_streaming.2 decodeC7 ccEmpty c7Bad
      initialStreamState rfl

theorem containsShape_cons_false (p0 : Char → Bool) (ps : List (Char → Bool))
    (c : Char) (cs : Str) (h : p0 c = false) :
    containsShape (p0 :: ps) (c :: cs) = containsShape (p0 :: ps) cs := by
  simp [containsShape, matchShapeAt, h]

theorem containsReDoSPattern_aRun (n : Nat) :
    containsReDoSPattern (aRun n) = false := by
  induction n with
  | zero => rfl
  | succ k ih =>
    rw [show aRun (k + 1) = 'a' :: aRun k by simp [aRun, List.replicate_succ]]
    simp only [containsReDoSPattern, reDoSShapes, List.any_cons, List.any_nil] at ih ⊢
    rw [containsShape_cons_false _ _ _ _ (by rfl),
        containsShape_cons_false _ _ _ _ (by rfl),
        containsShape_cons_false _ _ _ _ (by rfl),
        containsShape_cons_false _ _ _ _ (by rfl),
        containsShape_cons_false _ _ _ _ (by rfl),
        containsShape_cons_false _ _ _ _ (by rfl)]
    exact ih

/-- Claim C8 (amended): `ValidateIsRegex` rejects a pattern iff its
length exceeds 1000, or it fails to compile, or the textual ReDoS
screen fires — where the screen looks for the literal substrings
`(.*)+`, `(.+)+`, `(.*)*`, `([^/]+)+/` and for the character-class
shapes `(` `\w` `+` `)` `*` `\w` `*` and `(` `\d` `+` `)` `+` (one word
character / one digit at the class positions, *not* the literal texts
`(\w+)*\w*` and `(\d+)+`).  A compilable screen-clean pattern of length
exactly 1000 is accepted and one of length 1001 is rejected. -/
theorem validateIsRegex_reject_iff (compile : Str → Option Matcher) (p : Str) :
    (ValidateIsRegex compile p = false ↔
      1000 < p.length ∨ (compile p).isSome = false ∨
        containsReDoSPattern p = true)
    ∧ ValidateIsRegex compileAll (aRun 1000) = true
    ∧ ValidateIsRegex compileAll (aRun 1001) = false := by
  refine ⟨?_, ?_, ?_⟩
  · cases h1 : containsReDoSPattern p with
    | true => simp [ValidateIsRegex, h1]
    | false =>
      by_cases h2 : p.length > 1000
      · simp [ValidateIsRegex, h1, h2]
      · simp [ValidateIsRegex, h1, h2]
  · unfold ValidateIsRegex
    rw [containsReDoSPattern_aRun]
    have hl : (aRun 1000).length = 1000 := by rw [aRun, List.length_replicate]
    rw [if_neg (by simp), if_neg (by rw [hl]; omega)]
    rfl
  · unfold ValidateIsRegex
    rw [containsReDoSPattern_aRun]
    have hl : (aRun 1001).length = 1001 := by rw [aRun, List.length_replicate]
    rw [if_neg (by simp), if_pos (by rw [hl]; omega)]

/-- Counterexample to C8 as stated: the screen is not a *literal*
match for `(\w+)*\w*` and `(\d+)+` — the code rejects `(1+)+` (flagged
by the digit-class screen) although it contains none of the six literal
shapes, and accepts the literal text `(\d+)+` although the claim says a
pattern containing it is rejected. -/
theorem validateIsRegex_literal_screen_counterexample :
    ValidateIsRegex compileAll (("(1+)+").data) = false
    ∧ specRegexRejects compilesAll (("(1+)+").data) = false
    ∧ ValidateIsRegex compileAll (("(\\d+)+").data) = true
    ∧ specRegexRejects compilesAll (("(\\d+)+").data) = true := by
  exact ⟨rfl, rfl, rfl, rfl⟩

theorem list_all_and_split {α : Type} (p q : α → Bool) (l : List α) :
    l.all (fun x => p x && q x) = (l.all p && l.all q) := by
  induction l with
  | nil => rfl
  | cons a l ih =>
    simp only [List.all_cons, ih]
    cases p a <;> cases q a <;> simp

theorem splitOnDot_dot (rest : Str) :
    splitOnDot (dotChar :: rest) = [] :: splitOnDot rest := by
  simp [splitOnDot]

theorem splitOnDot_cons (c : Char) (rest : Str) (hc : ¬ c = dotChar) :
    splitOnDot (c :: rest) =
      (c :: (splitOnDot rest).headD []) :: (splitOnDot rest).tail := by
  simp [splitOnDot, hc]

theorem splitOnDot_ne_nil (cs : Str) : splitOnDot cs ≠ [] := by
  cases cs with
  | nil => simp [splitOnDot]
  | cons c rest => by_cases hc : c = dotChar <;> simp [splitOnDot, hc]

theorem splitOnDot_head_tail (cs : Str) :
    splitOnDot cs = (splitOnDot cs).headD [] :: (splitOnDot cs).tail := by
  cases h : splitOnDot cs with
  | nil => exact absurd h (splitOnDot_ne_nil cs)
  | cons a as => rfl

theorem pathClass_eq_segClass (c : Char) (hc : ¬ c = dotChar) :
    pathClass c = segClass c := by
  simp [pathClass, segClass, hc]

theorem allSegsClass_eq_all_pathClass : ∀ cs, allSegsClass cs = cs.all pathClass := by
  intro cs
  induction cs with
  | nil => rfl
  | cons c rest ih =>
    by_cases hc : c = dotChar
    · subst hc
      rw [allSegsClass, splitOnDot_dot]
      simp only [List.all_cons, List.all_nil, Bool.true_and]
      rw [show ((splitOnDot rest).all fun s => s.all segClass) = allSegsClass rest
        from rfl, ih]
      have hd : pathClass dotChar = true := by decide
      simp [hd]
    · rw [allSegsClass, splitOnDot_cons c rest hc]
      simp only [List.all_cons]
      have hfold : (((splitOnDot rest).headD []).all segClass &&
          ((splitOnDot rest).tail).all (fun s => s.all segClass)) =
            allSegsClass rest := by
        rw [allSegsClass]
        conv_rhs => rw [splitOnDot_head_tail rest]
        simp [List.all_cons]
      rw [Bool.and_assoc, hfold, ih, pathClass_eq_segClass c hc]

theorem restSegsNonEmpty_dot (rest : Str) :
    restSegsNonEmpty (dotChar :: rest) = allSegsNonEmpty rest := by
  rw [restSegsNonEmpty, splitOnDot_dot]
  rfl

theorem restSegsNonEmpty_cons (c : Char) (rest : Str) (hc : ¬ c = dotChar) :
    restSegsNonEmpty (c :: rest) = restSegsNonEmpty rest := by
  rw [restSegsNonEmpty, splitOnDot_cons c rest hc]
  rfl

theorem allSegsNonEmpty_dot (rest : Str) :
    allSegsNonEmpty (dotChar :: rest) = false := by
  rw [allSegsNonEmpty, splitOnDot_dot]
  simp

theorem allSegsNonEmpty_cons (c : Char) (rest : Str) (hc : ¬ c = dotChar) :
    allSegsNonEmpty (c :: rest) = restSegsNonEmpty (c :: rest) := by
  rw [allSegsNonEmpty, restSegsNonEmpty, splitOnDot_cons c rest hc]
  simp

theorem restSegsNonEmpty_eq_noDots : ∀ cs, restSegsNonEmpty cs =
    (!containsSeq [dotChar, dotChar] cs && !hasSuffixDot cs) := by
  intro cs
  induction cs with
  | nil => rfl
  | cons c rest ih =>
    by_cases hc : c = dotChar
    · subst hc
      rw [restSegsNonEmpty_dot]
      cases rest with
      | nil => rfl
      | cons d ds =>
        by_cases hd : d = dotChar
        · subst hd
          rw [allSegsNonEmpty_dot]
          simp [containsSeq, startsWithSeq]
        · rw [allSegsNonEmpty_cons d ds hd]
          rw [show restSegsNonEmpty (d :: ds) = _ from ih]
          have h1 : containsSeq [dotChar, dotChar] (dotChar :: d :: ds) =
              containsSeq [dotChar, dotChar] (d :: ds) := by
            simp [containsSeq, startsWithSeq, hd]
          have h2 : hasSuffixDot (dotChar :: d :: ds) = hasSuffixDot (d :: ds) := by
            rw [hasSuffixDot, hasSuffixDot, List.getLast?_cons_cons]
          rw [h1, h2]
    · rw [restSegsNonEmpty_cons c rest hc, ih]
      cases rest with
      | nil =>
        simp [containsSeq, startsWithSeq, hasSuffixDot, hc]
      | cons d ds =>
        have h1 : containsSeq [dotChar, dotChar] (c :: d :: ds) =
            containsSeq [dotChar, dotChar] (d :: ds) := by
          simp [containsSeq, startsWithSeq, hc]
        have h2 : hasSuffixDot (c :: d :: ds) = hasSuffixDot (d :: ds) := by
          rw [hasSuffixDot, hasSuffixDot, List.getLast?_cons_cons]
        rw [h1, h2]

/-- Claim C9 (amended): `isValidFieldPath` accepts a string iff it is a
non-empty dotted path with no empty segments (no leading or trailing
dot, no `..`), every character of every segment in `[A-Za-z0-9_-]`, and
the *first* segment starting with a letter — later segments may start
with a digit, `_` or `-` (only the first character of the whole path is
required to be alphabetic).  The boundary examples of the claim behave
as stated: `userIdentity..arn`, `.x`, `x.` and `x y` are rejected and
`x-y` is accepted. -/
theorem isValidFieldPath_iff_amended :
    (∀ p, isValidFieldPath p = amendedFieldPath p)
    ∧ isValidFieldPath (("userIdentity..arn").data) = false
    ∧ isValidFieldPath ((".x").data) = false
    ∧ isValidFieldPath (("x.").data) = false
    ∧ isValidFieldPath (("x y").data) = false
    ∧ isValidFieldPath (("x-y").data) = true := by
  refine ⟨?_, rfl, rfl, rfl, rfl, rfl⟩
  intro p
  cases p with
  | nil => rfl
  | cons c rest =>
    by_cases hc : c = dotChar
    · subst hc
      have hra : dotChar.isAlpha = false := by decide
      have h1 : isValidFieldPath (dotChar :: rest) = false := by
        have hfr : fieldPathRegex (dotChar :: rest) = false := by
          simp [fieldPathRegex, hra]
        simp [isValidFieldPath, hfr]
      have h2 : amendedFieldPath (dotChar :: rest) = false := by
        unfold amendedFieldPath
        rw [splitOnDot_dot]
        simp
      rw [h1, h2]
    · by_cases ha : c.isAlpha = true
      · -- main case: non-dot alphabetic head
        have hsW2 : startsWithSeq (c :: rest) [dotChar] = false := by
          simp [startsWithSeq, hc]
        have hClass : (((splitOnDot rest).headD []).all segClass &&
            ((splitOnDot rest).tail).all (fun s => s.all segClass)) =
              rest.all pathClass := by
          have h := allSegsClass_eq_all_pathClass (c :: rest)
          rw [allSegsClass, splitOnDot_cons c rest hc] at h
          simp only [List.all_cons] at h
          have hseg : segClass c = true := by simp [segClass, ha]
          rw [hseg] at h
          simpa [pathClass, ha] using h
        have hNE : ((splitOnDot rest).tail).all (fun s => !s.isEmpty) =
            (!containsSeq [dotChar, dotChar] (c :: rest) &&
              !hasSuffixDot (c :: rest)) := by
          have h := restSegsNonEmpty_eq_noDots (c :: rest)
          rw [restSegsNonEmpty, splitOnDot_cons c rest hc] at h
          simpa using h
        have hcode : isValidFieldPath (c :: rest) =
            (rest.all pathClass && (!containsSeq [dotChar, dotChar] (c :: rest) &&
              !hasSuffixDot (c :: rest))) := by
          unfold isValidFieldPath
          rw [hsW2]
          simp only [fieldPathRegex, ha, Bool.true_and, Bool.or_false]
          cases hA : rest.all pathClass with
          | false => simp
          | true =>
            cases hCt : containsSeq [dotChar, dotChar] (c :: rest) with
            | true => simp
            | false => cases hSf : hasSuffixDot (c :: rest) <;> simp
        have hAm : amendedFieldPath (c :: rest) =
            ((((splitOnDot rest).headD []).all segClass &&
              ((splitOnDot rest).tail).all (fun s => s.all segClass)) &&
              ((splitOnDot rest).tail).all (fun s => !s.isEmpty)) := by
          unfold amendedFieldPath
          rw [splitOnDot_cons c rest hc]
          dsimp only
          rw [ha, list_all_and_split]
          cases h1 : ((splitOnDot rest).headD []).all segClass <;>
            cases h2 : ((splitOnDot rest).tail).all (fun s => s.all segClass) <;>
            cases h3 : ((splitOnDot rest).tail).all (fun s => !s.isEmpty) <;>
            simp
        rw [hcode, hAm, hClass, hNE]
      · -- head not alphabetic: both sides reject
        have haf : c.isAlpha = false := by
          revert ha; cases c.isAlpha <;> simp
        have h1 : isValidFieldPath (c :: rest) = false := by
          have hfr : fieldPathRegex (c :: rest) = false := by
            simp [fieldPathRegex, haf]
          simp [isValidFieldPath, hfr]
        have h2 : amendedFieldPath (c :: rest) = false := by
          unfold amendedFieldPath
          rw [splitOnDot_cons c rest hc]
          dsimp only
          rw [haf]
          simp
        rw [h1, h2]

/-- Counterexample to C9 as stated: the path `a.1` has a second segment
starting with a digit, so the claim's segment grammar rejects it, but
`isValidFieldPath` accepts it (only the first character of the whole
path must be a letter). -/
theorem isValidFieldPath_digit_segment_counterexample :
    isValidFieldPath (("a.1").data) = true
    ∧ specFieldPath (("a.1").data) = false := by
  exact ⟨rfl, rfl⟩

theorem infix_of_drop_take (s pat : Str) (i : Nat)
    (h : (s.drop i).take pat.length = pat) : pat <:+: s := by
  have h1 : pat <+: s.drop i := List.prefix_iff_eq_take.mpr h.symm
  exact h1.isInfix.trans (List.drop_suffix i s).isInfix

theorem retryContains_true_imp (s pat : Str)
    (h : retryContains s pat = true) : pat ≠ [] ∧ pat <:+: s := by
  unfold retryContains at h
  simp only [Bool.and_eq_true, Bool.or_eq_true, decide_eq_true_eq] at h
  obtain ⟨⟨hlen0, hlenle⟩, hdisj⟩ := h
  refine ⟨by intro he; subst he; simp at hlen0, ?_⟩
  rcases hdisj with (heq | ⟨hlt, hor⟩) | hmid
  · rw [heq]
  · rcases hor with hpre | hsuf
    · exact infix_of_drop_take s pat 0 (by simpa using hpre)
    · exact (List.suffix_iff_eq_drop.mpr hsuf.symm).isInfix
  · unfold containsMiddle at hmid
    by_cases hle : s.length ≤ pat.length
    · rw [if_pos hle] at hmid
      cases hmid
    · rw [if_neg hle] at hmid
      rcases List.any_eq_true.mp hmid with ⟨i, hi, hocc⟩
      exact infix_of_drop_take s pat i (by simp at hocc; exact hocc)

theorem infix_imp_retryContains (s pat : Str) (hne : pat ≠ [])
    (h : pat <:+: s) : retryContains s pat = true := by
  obtain ⟨u, w, hs⟩ := h
  subst hs
  have hp : 0 < pat.length := List.length_pos.mpr hne
  unfold retryContains
  simp only [Bool.and_eq_true, Bool.or_eq_true, decide_eq_true_eq]
  refine ⟨⟨hp, by simp [List.length_append]; omega⟩, ?_⟩
  cases u with
  | nil =>
    cases w with
    | nil => left; left; simp
    | cons d ds =>
      left; right
      refine ⟨by simp [List.length_append], Or.inl ?_⟩
      simp
  | cons a as =>
    cases w with
    | nil =>
      left; right
      refine ⟨by simp [List.length_append]; omega, Or.inr ?_⟩
      have hlen : ((a :: as) ++ pat ++ []).length - pat.length = (a :: as).length := by
        simp [List.length_append]
        omega
      rw [hlen]
      simp
    | cons d ds =>
      right
      unfold containsMiddle
      rw [if_neg (by simp [List.length_append]; omega)]
      apply List.any_eq_true.mpr
      refine ⟨(a :: as).length, ?_, ?_⟩
      · apply List.mem_range'_1.mpr
        constructor
        · simp
        · simp [List.length_append]
          omega
      · have h1 : ((a :: as) ++ pat ++ (d :: ds)).drop (a :: as).length =
            pat ++ (d :: ds) := by
          rw [List.append_assoc]
          exact List.drop_left (a :: as) (pat ++ (d :: ds))
        rw [h1]
        simp [List.take_left]

theorem retryContains_iff (s pat : Str) :
    retryContains s pat = true ↔ (pat ≠ [] ∧ pat <:+: s) := by
  constructor
  · exact retryContains_true_imp s pat
  · rintro ⟨hne, hinf⟩
    exact infix_imp_retryContains s pat hne hinf

/-- Claim C10 (amended): when the retry driver is invoked without an
explicit retryable-error predicate, *every* error is treated as
retryable (`DefaultConfig` installs `return true`).  The
substring-based classification is the separate function `IsRetryable`
(which callers must pass explicitly via `WithRetryableError`): it
rejects `nil` errors and otherwise returns `true` iff the error message
contains one of the twelve known-transient substrings. -/
theorem defaultRetryable_all_and_isRetryable_iff :
    (∀ e, defaultRetryableError e = true)
    ∧ IsRetryable none = false
    ∧ (∀ msg, IsRetryable (some msg) = true ↔
        ∃ pat ∈ retryablePatterns, pat <:+: msg) := by
  refine ⟨fun _ => rfl, rfl, ?_⟩
  intro msg
  have hne : ∀ p ∈ retryablePatterns, p ≠ [] := by decide
  show (retryablePatterns.any fun pat => retryContains msg pat) = true ↔ _
  rw [List.any_eq_true]
  constructor
  · rintro ⟨pat, hmem, hc⟩
    exact ⟨pat, hmem, (retryContains_iff msg pat |>.mp hc).2⟩
  · rintro ⟨pat, hmem, hinf⟩
    exact ⟨pat, hmem, (retryContains_iff msg pat).mpr ⟨hne pat hmem, hinf⟩⟩

/-- Counterexample to C10 as stated: the message `invalid parameter`
contains none of the twelve transient substrings, yet the default
predicate installed by `DefaultConfig` treats it as retryable (while
the separate `IsRetryable`, which is not the default, rejects it). -/
theorem defaultRetryable_counterexample :
    defaultRetryableError (some (("invalid parameter").data)) = true
    ∧ IsRetryable (some (("invalid parameter").data)) = false
    ∧ ¬ ∃ pat ∈ retryablePatterns, pat <:+: (("invalid parameter").data) := by
  refine ⟨rfl, by rfl, ?_⟩
  decide
